import Mathlib

/-!
Verification of the MIMA emulator and assembler (src/mima.rs, src/compiler.rs).

The Rust code is shallowly embedded: `usize` becomes `Nat` (with an explicit
`% 2 ^ 64` where the Rust arithmetic can wrap, and 64-bit complement/rotate
for `!`/`rotate_right`), `Vec<usize>` memory of fixed capacity `MEMORY_SIZE`
becomes a function `Nat → Nat` whose accesses are bounds-checked exactly where
the Rust code indexes (an out-of-range index, which panics in Rust, is
modelled by `Option.none`), and fallible operations return `Option`/`Except`.
-/

namespace MimaWasm

/-- mima.rs line 5. -/
def MEMORY_SIZE : Nat := 1048576

/-- mima.rs line 6. -/
def VALUE_SIZE : Nat := 16777216

/-- mima.rs line 7: `0b100000000000000000000000`, i.e. `2 ^ 23`. -/
def MINUS_ONE : Nat := 8388608

/-- The modulus of Rust's 64-bit `usize`, used where its arithmetic wraps. -/
def USIZE_SIZE : Nat := 18446744073709551616

/-- mima.rs lines 138-154: the instruction set. -/
inductive Instruction where
  | LDC | LDV | STV | ADD | AND | OR | XOR | EQL
  | JMP | JMN | LDIV | STIV | NOT | RAR | HALT
deriving DecidableEq, Repr

/-- mima.rs lines 157-176: `Instruction::from_opcode` (a `match` on opcode values). -/
def Instruction.from_opcode : Nat → Option Instruction
  | 0 => some .LDC
  | 1 => some .LDV
  | 2 => some .STV
  | 3 => some .ADD
  | 4 => some .AND
  | 5 => some .OR
  | 6 => some .XOR
  | 7 => some .EQL
  | 8 => some .JMP
  | 9 => some .JMN
  | 10 => some .LDIV
  | 11 => some .STIV
  | 240 => some .HALT
  | 241 => some .NOT
  | 242 => some .RAR
  | _ => none

/-- mima.rs lines 177-196: `Instruction::from_string` (a `match` on mnemonics). -/
def Instruction.from_string : String → Option Instruction
  | "LDC" => some .LDC
  | "LDV" => some .LDV
  | "STV" => some .STV
  | "ADD" => some .ADD
  | "AND" => some .AND
  | "OR" => some .OR
  | "XOR" => some .XOR
  | "EQL" => some .EQL
  | "JMP" => some .JMP
  | "JMN" => some .JMN
  | "LDIV" => some .LDIV
  | "STIV" => some .STIV
  | "HALT" => some .HALT
  | "NOT" => some .NOT
  | "RAR" => some .RAR
  | _ => none

/-- mima.rs lines 197-215: `Instruction::to_opcode`. -/
def Instruction.to_opcode : Instruction → Nat
  | .LDC => 0
  | .LDV => 1
  | .STV => 2
  | .ADD => 3
  | .AND => 4
  | .OR => 5
  | .XOR => 6
  | .EQL => 7
  | .JMP => 8
  | .JMN => 9
  | .LDIV => 10
  | .STIV => 11
  | .HALT => 240
  | .NOT => 241
  | .RAR => 242

/-- The `.enumerate().fold(0, |acc, (index, elem)| acc + elem * 2.pow(index))`
pattern shared by `Command::from_usize` and `Command::to_usize`. -/
def enum_fold (bits : List Nat) : Nat :=
  bits.enum.foldl (fun acc p => acc + p.2 * 2 ^ p.1) 0

/-- The `(lo..hi).map(|n| (v >> n) & 1)` iterator followed by `enum_fold`,
used in `Command::from_usize` with the ranges 20..24, 0..20, 16..24 and 0..16. -/
def field_bits (v lo hi : Nat) : Nat :=
  enum_fold ((List.range' lo (hi - lo)).map (fun n => v >>> n &&& 1))

/-- mima.rs lines 220-223. -/
structure Command where
  instruction : Instruction
  value : Nat
deriving DecidableEq, Repr

/-- mima.rs lines 227-263: `Command::from_usize`.  Note the guard is the
strict comparison `v > VALUE_SIZE` of the source, so `v = VALUE_SIZE` is
accepted. -/
def Command.from_usize (v : Nat) : Option Command :=
  if v > VALUE_SIZE then none
  else
    let opcode := field_bits v 20 24
    let value := field_bits v 0 20
    -- Check if we are dealing with 8 bit opcodes (`opcode == 0b1111`)
    if opcode = 15 then
      (Instruction.from_opcode (field_bits v 16 24)).map
        (fun instruction => { instruction, value := field_bits v 0 16 })
    else
      (Instruction.from_opcode opcode).map (fun instruction => { instruction, value })

/-- mima.rs lines 264-281: `Command::to_usize`.  The opcode and value bit
vectors are built most-significant-first (`.rev()` of the `(0..k)` maps),
chained, reversed and folded exactly as in the source. -/
def Command.to_usize (c : Command) : Nat :=
  let opcode := c.instruction.to_opcode
  let opcode_bytes : List Nat :=
    if opcode ≥ 240 then ((List.range 8).map (fun n => opcode >>> n &&& 1)).reverse
    else ((List.range 4).map (fun n => opcode >>> n &&& 1)).reverse
  let value_bytes : List Nat :=
    if opcode ≥ 240 then ((List.range 16).map (fun n => c.value >>> n &&& 1)).reverse
    else ((List.range 20).map (fun n => c.value >>> n &&& 1)).reverse
  enum_fold ((opcode_bytes ++ value_bytes).reverse)

/-- A `Command` is representable when its operand fits the operand field of
its opcode family: 16 bits for the extended (8-bit-opcode) family, 20 bits
otherwise. -/
def Command.representable (c : Command) : Prop :=
  if c.instruction.to_opcode ≥ 240 then c.value < 2 ^ 16 else c.value < 2 ^ 20

-- Equality of compiler results is decidable (used to evaluate the
-- concrete compilation scenarios).
deriving instance DecidableEq for Except

/-- compiler.rs lines 16-20: `CompilerOutput` (a packed program image). -/
structure CompilerOutput where
  mima_code : List Nat
  start_adress : Nat
deriving DecidableEq, Repr

/-- mima.rs lines 10-15: the machine state.  The `Vec<usize>` memory of
length `MEMORY_SIZE` is modelled as a total function; only the cells below
`MEMORY_SIZE` are the machine's memory, and every access the Rust code makes
through indexing is bounds-checked here exactly where Rust would panic. -/
structure Mima where
  akku : Nat
  iar : Nat
  halt : Bool
  memory : Nat → Nat

/-- `self.memory[a]` as an r-value: panics (here `none`) unless `a` is below
the vector's length `MEMORY_SIZE`. -/
def memRead (mem : Nat → Nat) (a : Nat) : Option Nat :=
  if a < MEMORY_SIZE then some (mem a) else none

/-- `self.memory[a] = v`: panics (here `none`) unless `a < MEMORY_SIZE`. -/
def memWrite (mem : Nat → Nat) (a v : Nat) : Option (Nat → Nat) :=
  if a < MEMORY_SIZE then some (fun i => if i = a then v else mem i) else none

/-- mima.rs lines 104-111: `Mima::new`. -/
def Mima.new : Mima :=
  { akku := 0, iar := 0, halt := false, memory := fun _ => 0 }

/-- mima.rs lines 26-31: `Mima::reset` (`vec![0; MEMORY_SIZE]` zeroes memory). -/
def Mima.reset (_ : Mima) : Mima :=
  { akku := 0, iar := 0, halt := false, memory := fun _ => 0 }

/-- mima.rs lines 32-39: `Mima::write_adress`.  Returns the `bool` result
together with the (possibly unchanged) machine. -/
def Mima.write_adress (m : Mima) (adress value : Nat) : Bool × Mima :=
  if adress ≥ MEMORY_SIZE ∨ value ≥ VALUE_SIZE then (false, m)
  else (true, { m with memory := fun i => if i = adress then value else m.memory i })

/-- mima.rs lines 41-47: `Mima::read_adress` (it never mutates the machine). -/
def Mima.read_adress (m : Mima) (adress : Nat) : Option Nat :=
  if adress ≥ MEMORY_SIZE then none
  else some (m.memory adress)

/-- The instruction dispatch of mima.rs lines 64-94 (the `match` inside
`Mima::step`).  Returns the machine after the instruction's effect together
with `next_instruction` (initialised to `iar + 1`, overridden by the jumps);
`none` models a Rust panic on an out-of-range indirect memory index.
Rust 64-bit `usize` semantics: `+=` wraps modulo `2 ^ 64`, `!` is the 64-bit
complement, `rotate_right(1)` rotates in 64 bits. -/
def Mima.exec (m : Mima) (command : Command) : Option (Mima × Nat) :=
  let next_instruction := m.iar + 1
  match command.instruction with
  | .LDC => some ({ m with akku := command.value }, next_instruction)
  | .LDV => (memRead m.memory command.value).map
      (fun v => ({ m with akku := v }, next_instruction))
  | .STV => (memWrite m.memory command.value m.akku).map
      (fun mem => ({ m with memory := mem }, next_instruction))
  | .ADD => (memRead m.memory command.value).map
      (fun v => ({ m with akku := (m.akku + v) % USIZE_SIZE }, next_instruction))
  | .AND => (memRead m.memory command.value).map
      (fun v => ({ m with akku := m.akku &&& v }, next_instruction))
  | .OR => (memRead m.memory command.value).map
      (fun v => ({ m with akku := m.akku ||| v }, next_instruction))
  | .XOR => (memRead m.memory command.value).map
      (fun v => ({ m with akku := m.akku ^^^ v }, next_instruction))
  | .EQL => (memRead m.memory command.value).map
      (fun v => ({ m with akku := if m.akku = v then MINUS_ONE else 0 }, next_instruction))
  | .JMP => some (m, command.value)
  | .JMN => some (m, if m.akku ≥ MINUS_ONE then command.value else next_instruction)
  | .LDIV => (memRead m.memory command.value).bind
      (fun a => (memRead m.memory a).map (fun v => ({ m with akku := v }, next_instruction)))
  | .STIV => (memRead m.memory command.value).bind
      (fun adress => (memWrite m.memory adress m.akku).map
        (fun mem => ({ m with memory := mem }, next_instruction)))
  | .HALT => some ({ m with halt := true }, next_instruction)
  | .NOT => some ({ m with akku := USIZE_SIZE - 1 - m.akku }, next_instruction)
  | .RAR => some ({ m with akku := m.akku % 2 * 2 ^ 63 + m.akku / 2 }, next_instruction)

/-- mima.rs lines 53-98: `Mima::step`.  `none` models a Rust panic (the
unchecked fetch `self.memory[self.iar]`, or an out-of-range indirect access);
a decode failure or an out-of-range operand silently sets the halt flag.
After the dispatch, `iar` is advanced only if the instruction did not halt. -/
def Mima.step (m : Mima) : Option Mima :=
  if m.halt then some m
  else
    match memRead m.memory m.iar with
    | none => none
    | some w =>
      match Command.from_usize w with
      | none => some { m with halt := true }
      | some command =>
        if command.value ≥ MEMORY_SIZE then some { m with halt := true }
        else
          (m.exec command).map
            (fun p => if p.1.halt then p.1 else { p.1 with iar := p.2 })

/-- mima.rs lines 99-103: `Mima::run` is `while !self.halt { self.step() }`.
Modelled with explicit fuel: `run_for m n` performs at most `n` iterations of
that loop and returns the state reached (`none` still models a panic inside
`step`).  Every state `run` passes through is reached by finitely many
`step` calls, so step-closed reachability predicates also cover `run`. -/
def Mima.run_for (m : Mima) (n : Nat) : Option Mima :=
  match n with
  | 0 => some m
  | n + 1 => if m.halt then some m else (m.step).bind (fun m2 => m2.run_for n)

/-- The `for i in 0..code.len() { self.memory[i] = code[i] }` loop of
`Mima::load`; the bounds check in `load` guarantees every index is in range. -/
def copy_code (mem : Nat → Nat) : List Nat → Nat → (Nat → Nat)
  | [], _ => mem
  | w :: ws, i => copy_code (fun a => if a = i then w else mem a) ws (i + 1)

/-- mima.rs lines 112-123: `Mima::load`.  It resets first, then rejects
images with `code.len() >= MEMORY_SIZE`, otherwise copies the words to
addresses from 0 and installs the start address (unchecked) as `iar`. -/
def Mima.load (m : Mima) (program : CompilerOutput) : Bool × Mima :=
  let m := m.reset
  let code := program.mima_code
  if code.length ≥ MEMORY_SIZE then (false, m)
  else
    (true, { m with memory := copy_code m.memory code 0, iar := program.start_adress })

/-- compiler.rs lines 39-51: the compiler's error type. -/
inductive CompilerError where
  | InvalidLine : Nat → CompilerError
  | InvalidReference : Nat → CompilerError
  | UnknownVariable : String → CompilerError
  | UnknownLabel : String → CompilerError
  | UnknownInstruction : String → CompilerError
deriving DecidableEq, Repr

/-- The `snafu(display(...))` strings of compiler.rs lines 39-51
(`\x27` is the apostrophe). -/
def CompilerError.display : CompilerError → String
  | .InvalidLine line => "Invalid instruction in line \x27" ++ toString line ++ "\x27."
  | .InvalidReference line => "Invalid reference in line \x27" ++ toString line ++ "\x27"
  | .UnknownVariable name => "Couldn\x27t find variable \x27" ++ name ++ "\x27"
  | .UnknownLabel name => "Couldn\x27t find label \x27" ++ name ++ "\x27"
  | .UnknownInstruction name => "Couldn\x27t parse instruction: \x27" ++ name ++ "\x27."

/-! The two patterns of compiler.rs lines 9-13,

  `VARIABLE_REGEX    = ([a-zA-Z]+): DS( ([0-9]+))?`
  `INSTRUCTION_REGEX = \s*(([a-zA-Z]+):)?\s*([a-zA-Z]+)( ([0-9]+|[a-zA-Z]+))?`

are realised as explicit matchers over `List Char` with the regex crate's
unanchored, leftmost-first search semantics: the search tries each start
position from the left; a greedy `X+`/`X*` takes the maximal run (for these
patterns a shorter run can never satisfy the following literal, so no further
backtracking arises there), and the optional label group falls back to the
label-free alternative when its branch cannot complete. -/

/-- Rust regex `\s` (the ASCII whitespace class; the inputs here are single
source lines, so the codepoints beyond ASCII whitespace do not arise). -/
def isSpaceChar (c : Char) : Bool :=
  c = ' ' ∨ c = '\t' ∨ c = '\n' ∨ c = '\x0b' ∨ c = '\x0c' ∨ c = '\r'

/-- Maximal `[a-zA-Z]*` prefix and the remainder. -/
def takeAlpha : List Char → List Char × List Char
  | [] => ([], [])
  | c :: cs =>
    if c.isAlpha then
      let p := takeAlpha cs
      (c :: p.1, p.2)
    else ([], c :: cs)

/-- Maximal `[0-9]*` prefix and the remainder. -/
def takeDigits : List Char → List Char × List Char
  | [] => ([], [])
  | c :: cs =>
    if c.isDigit then
      let p := takeDigits cs
      (c :: p.1, p.2)
    else ([], c :: cs)

/-- Maximal `\s*` prefix and the remainder. -/
def takeSpaces : List Char → List Char × List Char
  | [] => ([], [])
  | c :: cs =>
    if isSpaceChar c then
      let p := takeSpaces cs
      (c :: p.1, p.2)
    else ([], c :: cs)

/-- `VARIABLE_REGEX` matched at one start position: `([a-zA-Z]+): DS` then
optionally a space and `([0-9]+)`; yields capture groups 1 (name) and
3 (initialiser digits). -/
def variableMatchAt (cs : List Char) : Option (List Char × Option (List Char)) :=
  let p := takeAlpha cs
  if p.1.isEmpty then none
  else
    match p.2 with
    | ':' :: ' ' :: 'D' :: 'S' :: rest =>
      match rest with
      | ' ' :: rest2 =>
        let d := takeDigits rest2
        if d.1.isEmpty then some (p.1, none) else some (p.1, some d.1)
      | _ => some (p.1, none)
    | _ => none

/-- `VARIABLE_REGEX.captures(line)`: leftmost match.  `is_match` agrees with
`isSome` of this. -/
def variableCaptures : List Char → Option (List Char × Option (List Char))
  | [] => none
  | c :: cs =>
    match variableMatchAt (c :: cs) with
    | some r => some r
    | none => variableCaptures cs

/-- The optional operand group `( ([0-9]+|[a-zA-Z]+))?` of
`INSTRUCTION_REGEX`: a literal space, then digits preferred over letters
(leftmost-first alternation); yields capture group 5. -/
def operandAt (cs : List Char) : Option (List Char) :=
  match cs with
  | ' ' :: rest =>
    let d := takeDigits rest
    if !d.1.isEmpty then some d.1
    else
      let a := takeAlpha rest
      if !a.1.isEmpty then some a.1 else none
  | _ => none

/-- `INSTRUCTION_REGEX` matched at one start position: skip `\s*`, try the
greedy optional `(([a-zA-Z]+):)?` label branch first and fall back to the
label-free branch if it cannot complete with a mnemonic; yields capture
groups 2 (label), 3 (mnemonic) and 5 (operand). -/
def instrMatchAt (cs : List Char) : Option (Option (List Char) × List Char × Option (List Char)) :=
  let afterWs := (takeSpaces cs).2
  let withLabel : Option (Option (List Char) × List Char × Option (List Char)) :=
    let lab := takeAlpha afterWs
    if lab.1.isEmpty then none
    else
      match lab.2 with
      | ':' :: r2 =>
        let mn := takeAlpha (takeSpaces r2).2
        if mn.1.isEmpty then none
        else some (some lab.1, mn.1, operandAt mn.2)
      | _ => none
  match withLabel with
  | some res => some res
  | none =>
    let mn := takeAlpha afterWs
    if mn.1.isEmpty then none
    else some (none, mn.1, operandAt mn.2)

/-- `INSTRUCTION_REGEX.captures(line)`: leftmost match. -/
def instructionCaptures : List Char → Option (Option (List Char) × List Char × Option (List Char))
  | [] => none
  | c :: cs =>
    match instrMatchAt (c :: cs) with
    | some r => some r
    | none => instructionCaptures cs

/-- `input.split("\n")` of compiler.rs line 73. -/
def splitOnNl : List Char → List (List Char)
  | [] => [[]]
  | c :: rest =>
    if c = '\n' then [] :: splitOnNl rest
    else
      match splitOnNl rest with
      | l :: ls => (c :: l) :: ls
      | [] => [[c]]

/-- Decimal value of a digit string. -/
def digits_to_nat (ds : List Char) : Nat :=
  ds.foldl (fun acc c => acc * 10 + (c.toNat - 48)) 0

/-- Rust `str::parse::<usize>()`: succeeds exactly on nonempty all-digit
strings whose value fits 64 bits. -/
def parse_usize (s : List Char) : Option Nat :=
  if s ≠ [] ∧ s.all Char.isDigit then
    if digits_to_nat s < USIZE_SIZE then some (digits_to_nat s) else none
  else none

/-- compiler.rs lines 195-199. -/
structure Variable where
  name : String
  value : Option Nat
deriving DecidableEq, Repr

/-- compiler.rs lines 207-212. -/
inductive Param where
  | Fixed : Nat → Param
  | Reference : String → Param
  | None : Param
deriving DecidableEq, Repr

/-- compiler.rs lines 201-206. -/
structure Cmd where
  instruction : Instruction
  param : Param
  label : Option String
deriving DecidableEq, Repr

/-- compiler.rs lines 190-194.  The field is named `variables` in the
source; that word is a reserved command token in Lean, so it is `vars`
here. -/
structure ParsedProgram where
  vars : List Variable
  commands : List Cmd
deriving DecidableEq, Repr

/-- The line loop of `parse_assembly` (compiler.rs lines 77-109).
`allLines` is the filtered line list used for the `InvalidLine` position. -/
def parse_lines (allLines : List (List Char)) :
    List (List Char) → Except CompilerError (List Variable × List Cmd)
  | [] => .ok ([], [])
  | line :: rest =>
    match variableCaptures line with
    | some (name, valueDigits) =>
      match parse_lines allLines rest with
      | .error e => .error e
      | .ok (vs, cs) =>
        .ok ({ name := String.mk name, value := valueDigits.bind parse_usize } :: vs, cs)
    | none =>
      match instructionCaptures line with
      | some (label, name, value) =>
        let param := match value with
          | some v =>
            match parse_usize v with
            | some number => Param.Fixed number
            | none => Param.Reference (String.mk v)
          | none => Param.None
        match Instruction.from_string (String.mk name) with
        | none => .error (.UnknownInstruction (String.mk name))
        | some instruction =>
          match parse_lines allLines rest with
          | .error e => .error e
          | .ok (vs, cs) =>
            .ok (vs, { instruction := instruction, param := param, label := label.map String.mk } :: cs)
      | none => .error (.InvalidLine (allLines.findIdx (fun r => r == line)))

/-- compiler.rs lines 69-114: `parse_assembly`.  Comment lines (starting
with `;`) and empty lines are dropped before classification. -/
def parse_assembly (input : String) : Except CompilerError ParsedProgram :=
  let lines := ((splitOnNl input.data).filter
      (fun line => !(line.head? == some ';'))).filter (fun line => !line.isEmpty)
  match parse_lines lines lines with
  | .error e => .error e
  | .ok (vars, commands) => .ok { vars := vars, commands := commands }

/-- The scan loop of `resolve_variable` with its running `memory_position`. -/
def resolve_variable_from (vars : List Variable) (reference : String)
    (memory_position : Nat) : Except CompilerError Nat :=
  match vars with
  | [] => .error (.UnknownVariable reference)
  | var :: rest =>
    if var.name = reference then .ok memory_position
    else resolve_variable_from rest reference (memory_position + 1)

/-- compiler.rs lines 168-177: `resolve_variable`. -/
def resolve_variable (vars : List Variable) (reference : String) :
    Except CompilerError Nat :=
  resolve_variable_from vars reference 0

/-- The scan loop of `resolve_label` with its running `memory_position`. -/
def resolve_label_from (commands : List Cmd) (label : String)
    (memory_position : Nat) : Except CompilerError Nat :=
  match commands with
  | [] => .error (.UnknownLabel label)
  | cmd :: rest =>
    if cmd.label = some label then .ok memory_position
    else resolve_label_from rest label (memory_position + 1)

/-- compiler.rs lines 179-188: `resolve_label`. -/
def resolve_label (commands : List Cmd) (label : String) : Except CompilerError Nat :=
  resolve_label_from commands label 0

/-- The per-command `match cmd.param` of `generate_machinecode`
(compiler.rs lines 123-155): fixed operands pass through, a missing operand
becomes 0, and a symbolic operand is resolved as a variable first; only when
that fails *and* the instruction is `JMP`/`JMN` is the label fallback
(position plus variable count) consulted, any other failure being an
`InvalidReference` at the command's position. -/
def resolveCmd (parsed : ParsedProgram) (cmd : Cmd) : Except CompilerError Command :=
  match cmd.param with
  | .Fixed value => .ok { instruction := cmd.instruction, value := value }
  | .None => .ok { instruction := cmd.instruction, value := 0 }
  | .Reference name =>
    let resolved_var := resolve_variable parsed.vars name
    if resolved_var.isOk = false ∧ (cmd.instruction = .JMP ∨ cmd.instruction = .JMN) then
      match resolve_label parsed.commands name with
      | .error e => .error e
      | .ok pos => .ok { instruction := cmd.instruction, value := pos + parsed.vars.length }
    else
      match resolved_var with
      | .ok value => .ok { instruction := cmd.instruction, value := value }
      | .error _ => .error (.InvalidReference (parsed.commands.findIdx (fun r => r == cmd)))

/-- The command loop of `generate_machinecode` (compiler.rs lines 122-157):
each command is resolved and encoded in source order, the first error
aborting the pass. -/
def compileCmds (parsed : ParsedProgram) : List Cmd → Except CompilerError (List Nat)
  | [] => .ok []
  | cmd :: rest =>
    match resolveCmd parsed cmd with
    | .error e => .error e
    | .ok command =>
      match compileCmds parsed rest with
      | .error e => .error e
      | .ok others => .ok (command.to_usize :: others)

/-- compiler.rs lines 116-162: `generate_machinecode`.  One word per
variable (its value or 0) in declaration order, then one word per command,
start address = variable count. -/
def generate_machinecode (parsed : ParsedProgram) : Except CompilerError CompilerOutput :=
  match compileCmds parsed parsed.commands with
  | .error e => .error e
  | .ok command_words =>
    .ok { mima_code := parsed.vars.map (fun var => var.value.getD 0) ++ command_words
          start_adress := parsed.vars.length }

/-- compiler.rs lines 64-67: `compile` (errors are surfaced as their
display strings). -/
def compile (input : String) : Except String CompilerOutput :=
  match parse_assembly input with
  | .error err => .error err.display
  | .ok parsed =>
    match generate_machinecode parsed with
    | .error err => .error err.display
    | .ok output => .ok output

/-- Decimal value of a low-to-high bit list, `Σ bits[i] * 2 ^ i`: the
quantity the enumerate-folds of the codec compute. -/
def bits_value : List Nat → Nat
  | [] => 0
  | b :: bs => b + 2 * bits_value bs

/-- The machine states reachable from a fresh machine through the public
mutating API: `load`, `write_adress` and `step`.  `run` (mima.rs lines
99-103) is a while-loop of `step`, so every state it passes through or ends
in is also reached by the `step` constructor alone. -/
inductive Reachable : Mima → Prop where
  | new : Reachable Mima.new
  | load (m : Mima) (p : CompilerOutput) : Reachable m → Reachable (m.load p).2
  | write_adress (m : Mima) (a v : Nat) : Reachable m → Reachable (m.write_adress a v).2
  | step (m m' : Mima) : Reachable m → m.step = some m' → Reachable m'

/-- The command the machine is about to execute (if any decodes at `iar`)
is not one of `ADD`, `NOT`, `RAR` — the three instructions whose Rust
64-bit `usize` arithmetic can leave the 24-bit value range. -/
def StepInRange (m : Mima) : Prop :=
  ∀ c : Command, Command.from_usize (m.memory m.iar) = some c →
    c.instruction ≠ .ADD ∧ c.instruction ≠ .NOT ∧ c.instruction ≠ .RAR

/-- Reachability restricted as the amended value-range claim requires:
loaded images hold only words below `VALUE_SIZE`, and no executed
instruction is `ADD`, `NOT` or `RAR`. -/
inductive SafeReach : Mima → Prop where
  | new : SafeReach Mima.new
  | load (m : Mima) (p : CompilerOutput) : SafeReach m →
      (∀ w ∈ p.mima_code, w < VALUE_SIZE) → SafeReach (m.load p).2
  | write_adress (m : Mima) (a v : Nat) : SafeReach m → SafeReach (m.write_adress a v).2
  | step (m m' : Mima) : SafeReach m → StepInRange m → m.step = some m' → SafeReach m'

/-- States reachable from a fresh machine by one successful `load` followed
by any number of (non-panicking) `step` calls. -/
inductive LoadedReach : Mima → Prop where
  | load (p : CompilerOutput) : (Mima.new.load p).1 = true →
      LoadedReach (Mima.new.load p).2
  | step (m m' : Mima) : LoadedReach m → m.step = some m' → LoadedReach m'

/-- As `LoadedReach`, but the loaded image's start address is below
`MEMORY_SIZE` (the restriction the amended fetch-bound claim needs). -/
inductive LoadedReachB : Mima → Prop where
  | load (p : CompilerOutput) : (Mima.new.load p).1 = true →
      p.start_adress < MEMORY_SIZE → LoadedReachB (Mima.new.load p).2
  | step (m m' : Mima) : LoadedReachB m → m.step = some m' → LoadedReachB m'

/-! ### The codec in closed form -/

theorem enumFrom_foldl_eq (l : List Nat) : ∀ (k acc : Nat),
    (List.enumFrom k l).foldl (fun acc p => acc + p.2 * 2 ^ p.1) acc
      = acc + 2 ^ k * bits_value l := by
  induction l with
  | nil => intro k acc; simp [bits_value]
  | cons b bs ih =>
    intro k acc
    simp only [List.enumFrom, List.foldl_cons]
    rw [ih]
    simp only [bits_value]
    ring

theorem enum_fold_eq_bits_value (l : List Nat) : enum_fold l = bits_value l := by
  have h := enumFrom_foldl_eq l 0 0
  simpa [enum_fold, List.enum] using h

theorem bits_value_append (a b : List Nat) :
    bits_value (a ++ b) = bits_value a + 2 ^ a.length * bits_value b := by
  induction a with
  | nil => simp [bits_value]
  | cons x xs ih =>
    simp only [List.cons_append, bits_value, List.length_cons, List.append_eq]
    rw [ih]
    ring

theorem bits_value_lowbits : ∀ (n x lo : Nat),
    bits_value ((List.range' lo n).map (fun i => x >>> i &&& 1)) = x >>> lo % 2 ^ n := by
  intro n
  induction n with
  | zero => intro x lo; simp [bits_value, Nat.mod_one]
  | succ n ih =>
    intro x lo
    rw [List.range'_succ]
    simp only [List.map_cons, bits_value]
    rw [ih x (lo + 1)]
    have h1 : x >>> (lo + 1) = x >>> lo / 2 := by
      rw [Nat.shiftRight_add, Nat.shiftRight_succ, Nat.shiftRight_zero]
    rw [h1, Nat.and_one_is_mod, pow_succ']
    exact (Nat.mod_mul).symm

theorem field_bits_eq (v lo hi : Nat) :
    field_bits v lo hi = v >>> lo % 2 ^ (hi - lo) := by
  rw [field_bits, enum_fold_eq_bits_value, bits_value_lowbits]

theorem from_usize_eq (v : Nat) : Command.from_usize v =
    if 16777216 < v then none
    else if v / 1048576 % 16 = 15 then
      (Instruction.from_opcode (v / 65536 % 256)).map
        (fun i => { instruction := i, value := v % 65536 })
    else
      (Instruction.from_opcode (v / 1048576 % 16)).map
        (fun i => { instruction := i, value := v % 1048576 }) := by
  rw [Command.from_usize]
  simp only [field_bits_eq, Nat.shiftRight_eq_div_pow, VALUE_SIZE, gt_iff_lt]
  norm_num

theorem to_usize_eq (c : Command) : c.to_usize =
    if 240 ≤ c.instruction.to_opcode then
      c.value % 65536 + 65536 * (c.instruction.to_opcode % 256)
    else
      c.value % 1048576 + 1048576 * (c.instruction.to_opcode % 16) := by
  by_cases h : 240 ≤ c.instruction.to_opcode <;>
    · rw [Command.to_usize]
      simp only [ge_iff_le, h, if_true, if_false]
      rw [List.reverse_append, List.reverse_reverse, List.reverse_reverse]
      rw [List.range_eq_range', List.range_eq_range']
      rw [enum_fold_eq_bits_value, bits_value_append, bits_value_lowbits, bits_value_lowbits]
      simp only [List.length_map, List.length_range', Nat.shiftRight_zero]
      norm_num

theorem Instruction.from_to (i : Instruction) :
    Instruction.from_opcode i.to_opcode = some i := by
  cases i <;> rfl

theorem Instruction.to_from (o : Nat) (i : Instruction)
    (h : Instruction.from_opcode o = some i) : i.to_opcode = o := by
  unfold Instruction.from_opcode at h
  split at h <;>
    first
      | exact Option.noConfusion h
      | (injection h with hh; subst hh; rfl)

theorem Instruction.opcode_cases (i : Instruction) :
    i.to_opcode ≤ 11 ∨ (240 ≤ i.to_opcode ∧ i.to_opcode ≤ 242) := by
  cases i <;> simp [Instruction.to_opcode]

/-! ### C1: the encode/decode round-trip -/

/-- C1 (counterexample to the claim as stated): `from_usize` accepts the
word `VALUE_SIZE = 2 ^ 24` (its guard is strict `>`), decodes it to
`LDC 0`, and `LDC 0` encodes back to `0`, not `VALUE_SIZE`; so the second
half of the round-trip fails at `w = VALUE_SIZE`. -/
theorem C1_roundtrip_cx :
    Command.from_usize VALUE_SIZE = some { instruction := Instruction.LDC, value := 0 } ∧
    Command.to_usize { instruction := Instruction.LDC, value := 0 } ≠ VALUE_SIZE := by
  constructor
  · decide
  · decide

/-- C1 (amended): for every representable Command `c` (operand fitting its
opcode family's operand field), `from_usize (to_usize c) = some c`; and for
every word `w` other than the single word `VALUE_SIZE` itself, if
`from_usize w = some cmd` then `to_usize cmd = w`. -/
theorem C1_roundtrip :
    (∀ c : Command, c.representable → Command.from_usize c.to_usize = some c) ∧
    (∀ (w : Nat) (c : Command), w ≠ VALUE_SIZE →
      Command.from_usize w = some c → c.to_usize = w) := by
  constructor
  · intro c hrep
    rw [Command.representable] at hrep
    rcases Instruction.opcode_cases c.instruction with hsml | hbig
    · have hop : ¬ 240 ≤ c.instruction.to_opcode := by omega
      rw [if_neg hop] at hrep
      norm_num at hrep
      rw [to_usize_eq, if_neg hop, from_usize_eq]
      have h1 : c.value % 1048576 + 1048576 * (c.instruction.to_opcode % 16)
          = c.value + 1048576 * c.instruction.to_opcode := by omega
      rw [h1, if_neg (by omega)]
      have h2 : (c.value + 1048576 * c.instruction.to_opcode) / 1048576 % 16
          = c.instruction.to_opcode := by omega
      rw [h2, if_neg (by omega)]
      have h3 : (c.value + 1048576 * c.instruction.to_opcode) % 1048576 = c.value := by
        omega
      rw [h3, Instruction.from_to]
      rfl
    · obtain ⟨hlo, hhi⟩ := hbig
      rw [if_pos hlo] at hrep
      norm_num at hrep
      rw [to_usize_eq, if_pos hlo, from_usize_eq]
      have h1 : c.value % 65536 + 65536 * (c.instruction.to_opcode % 256)
          = c.value + 65536 * c.instruction.to_opcode := by omega
      rw [h1, if_neg (by omega)]
      have h2 : (c.value + 65536 * c.instruction.to_opcode) / 1048576 % 16 = 15 := by
        omega
      rw [h2, if_pos rfl]
      have h3 : (c.value + 65536 * c.instruction.to_opcode) / 65536 % 256
          = c.instruction.to_opcode := by omega
      have h4 : (c.value + 65536 * c.instruction.to_opcode) % 65536 = c.value := by omega
      rw [h3, h4, Instruction.from_to]
      rfl
  · intro w c hne h
    unfold VALUE_SIZE at hne
    rw [from_usize_eq] at h
    by_cases hgt : 16777216 < w
    · rw [if_pos hgt] at h
      exact Option.noConfusion h
    · rw [if_neg hgt] at h
      push_neg at hgt
      by_cases h15 : w / 1048576 % 16 = 15
      · rw [if_pos h15] at h
        rcases Option.map_eq_some'.mp h with ⟨i, hi, hc⟩
        have hto := Instruction.to_from _ _ hi
        rw [← hc, to_usize_eq]
        dsimp only
        rw [hto, if_pos (by omega)]
        omega
      · rw [if_neg h15] at h
        rcases Option.map_eq_some'.mp h with ⟨i, hi, hc⟩
        have hto := Instruction.to_from _ _ hi
        rw [← hc, to_usize_eq]
        dsimp only
        rw [hto, if_neg (by omega)]
        omega

/-- C1 witness: the amended round-trip applied to the concrete command
`JMN 7` and the concrete word `15728641` (which decodes to `HALT 1`). -/
theorem C1_roundtrip_witness :
    Command.from_usize (Command.to_usize { instruction := Instruction.JMN, value := 7 })
        = some { instruction := Instruction.JMN, value := 7 } ∧
    Command.to_usize { instruction := Instruction.HALT, value := 1 } = 15728641 :=
  ⟨C1_roundtrip.1 { instruction := Instruction.JMN, value := 7 }
     (by rw [Command.representable]; norm_num [Instruction.to_opcode]),
   C1_roundtrip.2 15728641 { instruction := Instruction.HALT, value := 1 }
     (by decide) (by decide)⟩

/-! ### C2: what EQL stores on equality -/

/-- C2 (the code evaluated at the failing input): stepping a machine whose
accumulator `0` equals `memory[1]` through the instruction `EQL 1` (word
`7340033` at address 0) sets the accumulator to the constant `MINUS_ONE`,
whose value is `8388608 = 2 ^ 23` — the sign bit alone — and not the
all-ones pattern `2 ^ 24 - 1 = 16777215` of the 24-bit machine word. -/
theorem C2_eql_eval :
    (Mima.step { akku := 0, iar := 0, halt := false, memory :=
        fun a => if a = 0 then 7340033 else 0 }).map Mima.akku = some MINUS_ONE ∧
    MINUS_ONE = 8388608 ∧ (8388608 : Nat) ≠ 16777215 := by
  refine ⟨by decide, rfl, by decide⟩

/-! ### C4: silent halt on undecodable or out-of-range code words -/

/-- C4: in a non-halted state whose instruction-address is a valid memory
index, if the fetched word fails to decode, or decodes to a command whose
operand is not below `MEMORY_SIZE`, then `step` merely sets the halt flag:
it returns normally (no panic), and the accumulator, the
instruction-address and the whole memory are unchanged. -/
theorem C4_silent_halt (m : Mima) (h1 : m.halt = false) (h2 : m.iar < MEMORY_SIZE)
    (h3 : Command.from_usize (m.memory m.iar) = none ∨
      ∃ c, Command.from_usize (m.memory m.iar) = some c ∧ MEMORY_SIZE ≤ c.value) :
    m.step = some { m with halt := true } := by
  unfold Mima.step
  rw [h1]
  simp only [Bool.false_eq_true, if_false]
  unfold memRead
  rw [if_pos h2]
  rcases h3 with h3 | ⟨c, hc, hv⟩
  · dsimp only
    rw [h3]
  · dsimp only
    rw [hc]
    dsimp only
    rw [if_pos hv]

/-- C4 witness: the word `12582912 = 12 * 2 ^ 20` has the unknown opcode 12,
so a machine pointed at it halts silently, all else unchanged. -/
theorem C4_silent_halt_witness :
    Mima.step { akku := 5, iar := 0, halt := false, memory :=
        fun a => if a = 0 then 12582912 else 0 }
      = some { akku := 5, iar := 0, halt := true, memory :=
        fun a => if a = 0 then 12582912 else 0 } :=
  C4_silent_halt _ rfl (by decide) (Or.inl (by decide))

/-! ### C8: the direct memory accessors -/

/-- C8: `read_adress` fails (returns `none`) exactly on out-of-range
addresses and otherwise returns the cell's contents; `write_adress` fails
(returns `false`) exactly when the address or the value is out of range,
leaving memory untouched, and otherwise stores the value and returns
`true`; and `write_adress` never changes the accumulator, the
instruction-address or the halt flag (`read_adress` takes the machine
immutably here, so it changes nothing by construction). -/
theorem C8_accessors (m : Mima) (adress value : Nat) :
    (m.read_adress adress = none ↔ MEMORY_SIZE ≤ adress) ∧
    (adress < MEMORY_SIZE → m.read_adress adress = some (m.memory adress)) ∧
    ((m.write_adress adress value).1 = false ↔
      (MEMORY_SIZE ≤ adress ∨ VALUE_SIZE ≤ value)) ∧
    ((MEMORY_SIZE ≤ adress ∨ VALUE_SIZE ≤ value) → (m.write_adress adress value).2 = m) ∧
    (adress < MEMORY_SIZE → value < VALUE_SIZE →
      (m.write_adress adress value).1 = true ∧
      ((m.write_adress adress value).2).memory adress = value ∧
      ∀ b, b ≠ adress → ((m.write_adress adress value).2).memory b = m.memory b) ∧
    ((m.write_adress adress value).2).akku = m.akku ∧
    ((m.write_adress adress value).2).iar = m.iar ∧
    ((m.write_adress adress value).2).halt = m.halt := by
  by_cases ha : MEMORY_SIZE ≤ adress <;> by_cases hv : VALUE_SIZE ≤ value <;>
    simp [Mima.read_adress, Mima.write_adress, ha, hv]
  omega

/-- C8 witness: the accessor contract at the concrete machine `Mima.new`,
the out-of-range address `MEMORY_SIZE` and the in-range pair `(3, 7)`. -/
theorem C8_accessors_witness :
    Mima.new.read_adress MEMORY_SIZE = none ∧
    (Mima.new.write_adress MEMORY_SIZE 0).2 = Mima.new ∧
    (Mima.new.write_adress 3 7).1 = true ∧
    ((Mima.new.write_adress 3 7).2).memory 3 = 7 ∧
    ((Mima.new.write_adress 3 7).2).halt = Mima.new.halt :=
  ⟨(C8_accessors Mima.new MEMORY_SIZE 0).1.mpr (le_refl _),
   (C8_accessors Mima.new MEMORY_SIZE 0).2.2.2.1 (Or.inl (le_refl _)),
   ((C8_accessors Mima.new 3 7).2.2.2.2.1 (by decide) (by decide)).1,
   ((C8_accessors Mima.new 3 7).2.2.2.2.1 (by decide) (by decide)).2.1,
   (C8_accessors Mima.new 3 7).2.2.2.2.2.2.2⟩

/-! ### C9: load resets first, rejects over-long images, copies the rest -/

/-- What the copy loop of `Mima::load` does to each cell. -/
theorem copy_code_get (code : List Nat) : ∀ (mem : Nat → Nat) (start a : Nat),
    copy_code mem code start a =
      if start ≤ a ∧ a < start + code.length then code.getD (a - start) 0 else mem a := by
  induction code with
  | nil =>
    intro mem start a
    simp only [copy_code, List.length_nil]
    rw [if_neg (by omega)]
  | cons w ws ih =>
    intro mem start a
    simp only [copy_code, List.length_cons]
    rw [ih]
    by_cases hone : a = start
    · subst hone
      rw [if_neg (by omega), if_pos (by omega)]
      simp
    · by_cases hin : start + 1 ≤ a ∧ a < start + 1 + ws.length
      · rw [if_pos hin, if_pos (by omega)]
        have hsub : a - start = (a - (start + 1)) + 1 := by omega
        rw [hsub]
        simp [List.getD_cons_succ]
      · rw [if_neg hin]
        rw [if_neg hone, if_neg (by omega)]

/-- C9: `load` is not atomic on rejection.  It always resets first (to the
state of a fresh machine); an image of `MEMORY_SIZE` or more words is then
rejected with `false`, the machine remaining in the freshly reset state (the
prior state is lost); a shorter image is copied to addresses from 0, the
instruction-address becomes the image's start address, and `load` returns
`true`. -/
theorem C9_load (m : Mima) (p : CompilerOutput) :
    Mima.reset m = Mima.new ∧
    (MEMORY_SIZE ≤ p.mima_code.length → m.load p = (false, Mima.reset m)) ∧
    (p.mima_code.length < MEMORY_SIZE →
      (m.load p).1 = true ∧
      ((m.load p).2).akku = 0 ∧
      ((m.load p).2).halt = false ∧
      ((m.load p).2).iar = p.start_adress ∧
      (∀ a, a < p.mima_code.length → ((m.load p).2).memory a = p.mima_code.getD a 0) ∧
      (∀ a, p.mima_code.length ≤ a → ((m.load p).2).memory a = 0)) := by
  refine ⟨rfl, ?_, ?_⟩
  · intro h
    simp only [Mima.load]
    rw [if_pos h]
  · intro h
    simp only [Mima.load]
    rw [if_neg (by omega)]
    refine ⟨rfl, rfl, rfl, rfl, ?_, ?_⟩
    · intro a ha
      simp only [Mima.reset]
      rw [copy_code_get]
      rw [if_pos (by omega)]
      simp
    · intro a ha
      simp only [Mima.reset]
      rw [copy_code_get]
      rw [if_neg (by omega)]

/-- C9 witness: rejection at an image of exactly `MEMORY_SIZE` words
(machine left freshly reset), and acceptance of the two-word image
`[5, 7]` with start address 9. -/
theorem C9_load_witness :
    (MEMORY_SIZE ≤ (List.replicate MEMORY_SIZE 0).length ∧
      Mima.new.load { mima_code := List.replicate MEMORY_SIZE 0, start_adress := 0 }
        = (false, Mima.reset Mima.new)) ∧
    ((Mima.new.load { mima_code := [5, 7], start_adress := 9 }).1 = true ∧
      ((Mima.new.load { mima_code := [5, 7], start_adress := 9 }).2).iar = 9 ∧
      ((Mima.new.load { mima_code := [5, 7], start_adress := 9 }).2).memory 1 = 7 ∧
      ((Mima.new.load { mima_code := [5, 7], start_adress := 9 }).2).memory 2 = 0) := by
  have hlen : MEMORY_SIZE ≤ (List.replicate MEMORY_SIZE (0 : Nat)).length := by
    rw [List.length_replicate]
  have h2 := (C9_load Mima.new { mima_code := [5, 7], start_adress := 9 }).2.2 (by decide)
  refine ⟨⟨hlen, (C9_load Mima.new _).2.1 hlen⟩, h2.1, h2.2.2.2.1, ?_, ?_⟩
  · have := h2.2.2.2.2.1 1 (by decide)
    simpa using this
  · exact h2.2.2.2.2.2 2 (by decide)

/-! ### C5: variable-before-label resolution precedence -/

/-- The scan of `resolve_variable` returns the index (offset by the running
position) of the first declared variable with the requested name. -/
theorem resolve_variable_from_ok (name : String) :
    ∀ (vars : List Variable) (k i : Nat),
      resolve_variable_from vars name k = Except.ok i →
      i = k + vars.findIdx (fun v => v.name == name) := by
  intro vars
  induction vars with
  | nil => intro k i h; exact Except.noConfusion h
  | cons v rest ih =>
    intro k i h
    rw [resolve_variable_from] at h
    by_cases hv : v.name = name
    · rw [if_pos hv] at h
      injection h with h
      rw [List.findIdx_cons]
      simp only [hv, beq_self_eq_true, cond_true]
      omega
    · rw [if_neg hv] at h
      have hi := ih (k + 1) i h
      rw [List.findIdx_cons]
      have : (v.name == name) = false := by simp [hv]
      simp only [this, cond_false]
      omega

/-- C5: when a symbolic operand resolves as a declared variable, code
generation always uses the variable's address — the index of the first
variable of that name in the declaration list — never a label, even for
`JMP`/`JMN` and even if a label of the same name exists; the label fallback
(label position plus variable count) is consulted exactly when variable
resolution fails and the instruction is `JMP` or `JMN`. -/
theorem C5_resolution_precedence (parsed : ParsedProgram) (cmd : Cmd) (name : String)
    (hparam : cmd.param = Param.Reference name) :
    (∀ i, resolve_variable parsed.vars name = Except.ok i →
      resolveCmd parsed cmd = Except.ok { instruction := cmd.instruction, value := i } ∧
      i = parsed.vars.findIdx (fun v => v.name == name)) ∧
    ((resolve_variable parsed.vars name).isOk = false →
      (cmd.instruction = Instruction.JMP ∨ cmd.instruction = Instruction.JMN) →
      resolveCmd parsed cmd =
        (resolve_label parsed.commands name).map
          (fun pos => { instruction := cmd.instruction, value := pos + parsed.vars.length })) := by
  constructor
  · intro i hres
    constructor
    · simp only [resolveCmd, hparam, hres, Except.isOk]
      rw [if_neg (by simp [Except.toBool])]
    · have := resolve_variable_from_ok name parsed.vars 0 i hres
      omega
  · intro hfail hjump
    rw [resolveCmd, hparam]
    dsimp only
    rw [if_pos ⟨hfail, hjump⟩]
    cases hlab : resolve_label parsed.commands name with
    | error e => simp [Except.map]
    | ok pos => simp [Except.map]

/-- C5 witness: `LOOP` names both the second declared variable (address 1)
and a label; the jump resolves to the variable's address 1 — and a jump
whose operand names no variable falls back to the label address
(position 1 plus variable count 1 = 2). -/
theorem C5_resolution_precedence_witness :
    resolveCmd
        { vars := [{ name := "x", value := some 1 }, { name := "LOOP", value := none }]
          commands := [{ instruction := Instruction.JMP, param := Param.Reference "LOOP"
                         label := some "LOOP" }] }
        { instruction := Instruction.JMP, param := Param.Reference "LOOP"
          label := some "LOOP" }
      = Except.ok { instruction := Instruction.JMP, value := 1 } ∧
    resolveCmd
        { vars := [{ name := "x", value := some 1 }]
          commands := [{ instruction := Instruction.JMN, param := Param.Reference "FIN"
                         label := none },
                       { instruction := Instruction.HALT, param := Param.None
                         label := some "FIN" }] }
        { instruction := Instruction.JMN, param := Param.Reference "FIN", label := none }
      = (resolve_label
            [{ instruction := Instruction.JMN, param := Param.Reference "FIN", label := none },
             { instruction := Instruction.HALT, param := Param.None, label := some "FIN" }]
            "FIN").map
          (fun pos => { instruction := Instruction.JMN, value := pos + 1 }) :=
  ⟨((C5_resolution_precedence _ _ "LOOP" rfl).1 1 (by decide)).1,
   (C5_resolution_precedence _ _ "FIN" rfl).2 (by decide) (Or.inr rfl)⟩

/-! ### C6: the layout of a compiled image -/

/-- The command loop emits exactly one word per command. -/
theorem compileCmds_length (parsed : ParsedProgram) :
    ∀ (cmds : List Cmd) (words : List Nat),
      compileCmds parsed cmds = Except.ok words → words.length = cmds.length := by
  intro cmds
  induction cmds with
  | nil =>
    intro words h
    injection h with h
    subst h
    rfl
  | cons cmd rest ih =>
    intro words h
    rw [compileCmds] at h
    cases hres : resolveCmd parsed cmd with
    | error e => rw [hres] at h; exact Except.noConfusion h
    | ok command =>
      rw [hres] at h
      dsimp only at h
      cases hrec : compileCmds parsed rest with
      | error e => rw [hrec] at h; exact Except.noConfusion h
      | ok others =>
        rw [hrec] at h
        dsimp only at h
        injection h with h
        subst h
        simp [ih others hrec]

/-- C6: whenever `compile` succeeds, the image's start address is the number
of declared variables, its word count is the variable count plus the
instruction count, and the image is the variable words (declaration order,
unset values 0) followed by the encoded command words (source order, as
produced by the command loop). -/
theorem C6_layout (src : String) (p : ParsedProgram) (out : CompilerOutput)
    (hp : parse_assembly src = Except.ok p)
    (h : compile src = Except.ok out) :
    out.start_adress = p.vars.length ∧
    out.mima_code.length = p.vars.length + p.commands.length ∧
    (compileCmds p p.commands).map
        (fun words => p.vars.map (fun var => var.value.getD 0) ++ words)
      = Except.ok out.mima_code := by
  rw [compile, hp] at h
  dsimp only at h
  cases hg : generate_machinecode p with
  | error e => rw [hg] at h; exact Except.noConfusion h
  | ok out2 =>
    rw [hg] at h
    dsimp only at h
    injection h with h
    subst h
    rw [generate_machinecode] at hg
    cases hc : compileCmds p p.commands with
    | error e => rw [hc] at hg; exact Except.noConfusion hg
    | ok words =>
      rw [hc] at hg
      dsimp only at hg
      injection hg with hg
      subst hg
      refine ⟨rfl, ?_, ?_⟩
      · simp [compileCmds_length p p.commands words hc]
      · rfl

/-- C6 witness: the layout facts at the concrete program `"LDC 5\nHALT"`
(0 variables, 2 instructions, image `[5, 15728640]`, start address 0). -/
theorem C6_layout_witness :
    ({ mima_code := [5, 15728640], start_adress := 0 } : CompilerOutput).start_adress
        = ({ vars := []
             commands := [{ instruction := Instruction.LDC, param := Param.Fixed 5
                            label := none },
                          { instruction := Instruction.HALT, param := Param.None
                            label := none }] } : ParsedProgram).vars.length ∧
    ({ mima_code := [5, 15728640], start_adress := 0 } : CompilerOutput).mima_code.length
        = ({ vars := []
             commands := [{ instruction := Instruction.LDC, param := Param.Fixed 5
                            label := none },
                          { instruction := Instruction.HALT, param := Param.None
                            label := none }] } : ParsedProgram).vars.length
          + ({ vars := []
               commands := [{ instruction := Instruction.LDC, param := Param.Fixed 5
                              label := none },
                            { instruction := Instruction.HALT, param := Param.None
                              label := none }] } : ParsedProgram).commands.length ∧
    (compileCmds
        { vars := []
          commands := [{ instruction := Instruction.LDC, param := Param.Fixed 5
                         label := none },
                       { instruction := Instruction.HALT, param := Param.None
                         label := none }] }
        [{ instruction := Instruction.LDC, param := Param.Fixed 5, label := none },
         { instruction := Instruction.HALT, param := Param.None, label := none }]).map
        (fun words => ([] : List Variable).map (fun var => var.value.getD 0) ++ words)
      = Except.ok [5, 15728640] :=
  C6_layout "LDC 5\nHALT"
    { vars := []
      commands := [{ instruction := Instruction.LDC, param := Param.Fixed 5, label := none },
                   { instruction := Instruction.HALT, param := Param.None, label := none }] }
    { mima_code := [5, 15728640], start_adress := 0 }
    (by decide) (by decide)

/-! ### C7: the concrete compilation scenario -/

/-- C7: compiling `"LDV a\nADD b\nSTV c\nHALT\n\na: DS 22\nb: DS 20\nc: DS"`
succeeds with exactly the image
`[22, 20, 0, enc(LDV,0), enc(ADD,1), enc(STV,2), enc(HALT,0)]` and start
address 3: the variables declared after the instructions still resolve. -/
theorem C7_scenario1 :
    compile "LDV a\nADD b\nSTV c\nHALT\n\na: DS 22\nb: DS 20\nc: DS" =
      Except.ok ⟨[22, 20, 0,
          Command.to_usize { instruction := Instruction.LDV, value := 0 },
          Command.to_usize { instruction := Instruction.ADD, value := 1 },
          Command.to_usize { instruction := Instruction.STV, value := 2 },
          Command.to_usize { instruction := Instruction.HALT, value := 0 }], 3⟩ := by
  decide

/-! ### The shape of one executed instruction -/

/-- An instruction's dispatch never touches the instruction-address register
itself, and the `next_instruction` it hands back is either the sequential
`iar + 1` or the command's operand (for the jumps). -/
theorem exec_iar_next (m : Mima) (c : Command) (m3 : Mima) (nxt : Nat)
    (h : m.exec c = some (m3, nxt)) :
    m3.iar = m.iar ∧ (nxt = m.iar + 1 ∨ nxt = c.value) := by
  rw [Mima.exec] at h
  cases hins : c.instruction <;> rw [hins] at h <;> dsimp only at h
  case LDC =>
    simp only [Option.some.injEq, Prod.mk.injEq] at h
    obtain ⟨h1, h2⟩ := h
    subst h1; subst h2
    exact ⟨rfl, Or.inl rfl⟩
  case LDV =>
    rcases Option.map_eq_some'.mp h with ⟨v, _, heq⟩
    simp only [Prod.mk.injEq] at heq
    obtain ⟨h1, h2⟩ := heq
    subst h1; subst h2
    exact ⟨rfl, Or.inl rfl⟩
  case STV =>
    rcases Option.map_eq_some'.mp h with ⟨mem2, _, heq⟩
    simp only [Prod.mk.injEq] at heq
    obtain ⟨h1, h2⟩ := heq
    subst h1; subst h2
    exact ⟨rfl, Or.inl rfl⟩
  case ADD =>
    rcases Option.map_eq_some'.mp h with ⟨v, _, heq⟩
    simp only [Prod.mk.injEq] at heq
    obtain ⟨h1, h2⟩ := heq
    subst h1; subst h2
    exact ⟨rfl, Or.inl rfl⟩
  case AND =>
    rcases Option.map_eq_some'.mp h with ⟨v, _, heq⟩
    simp only [Prod.mk.injEq] at heq
    obtain ⟨h1, h2⟩ := heq
    subst h1; subst h2
    exact ⟨rfl, Or.inl rfl⟩
  case OR =>
    rcases Option.map_eq_some'.mp h with ⟨v, _, heq⟩
    simp only [Prod.mk.injEq] at heq
    obtain ⟨h1, h2⟩ := heq
    subst h1; subst h2
    exact ⟨rfl, Or.inl rfl⟩
  case XOR =>
    rcases Option.map_eq_some'.mp h with ⟨v, _, heq⟩
    simp only [Prod.mk.injEq] at heq
    obtain ⟨h1, h2⟩ := heq
    subst h1; subst h2
    exact ⟨rfl, Or.inl rfl⟩
  case EQL =>
    rcases Option.map_eq_some'.mp h with ⟨v, _, heq⟩
    simp only [Prod.mk.injEq] at heq
    obtain ⟨h1, h2⟩ := heq
    subst h1; subst h2
    exact ⟨rfl, Or.inl rfl⟩
  case JMP =>
    simp only [Option.some.injEq, Prod.mk.injEq] at h
    obtain ⟨h1, h2⟩ := h
    subst h1; subst h2
    exact ⟨rfl, Or.inr rfl⟩
  case JMN =>
    simp only [Option.some.injEq, Prod.mk.injEq] at h
    obtain ⟨h1, h2⟩ := h
    subst h1; subst h2
    refine ⟨rfl, ?_⟩
    split
    · exact Or.inr rfl
    · exact Or.inl rfl
  case LDIV =>
    rcases Option.bind_eq_some.mp h with ⟨a, _, hmap⟩
    rcases Option.map_eq_some'.mp hmap with ⟨v, _, heq⟩
    simp only [Prod.mk.injEq] at heq
    obtain ⟨h8, h9⟩ := heq
    subst h8; subst h9
    exact ⟨rfl, Or.inl rfl⟩
  case STIV =>
    rcases Option.bind_eq_some.mp h with ⟨a, _, hmap⟩
    rcases Option.map_eq_some'.mp hmap with ⟨mem2, _, heq⟩
    simp only [Prod.mk.injEq] at heq
    obtain ⟨h8, h9⟩ := heq
    subst h8; subst h9
    exact ⟨rfl, Or.inl rfl⟩
  case HALT =>
    simp only [Option.some.injEq, Prod.mk.injEq] at h
    obtain ⟨h1, h2⟩ := h
    subst h1; subst h2
    exact ⟨rfl, Or.inl rfl⟩
  case NOT =>
    simp only [Option.some.injEq, Prod.mk.injEq] at h
    obtain ⟨h1, h2⟩ := h
    subst h1; subst h2
    exact ⟨rfl, Or.inl rfl⟩
  case RAR =>
    simp only [Option.some.injEq, Prod.mk.injEq] at h
    obtain ⟨h1, h2⟩ := h
    subst h1; subst h2
    exact ⟨rfl, Or.inl rfl⟩

/-- One successful `step` keeps the instruction-address at most
`MEMORY_SIZE`: the fetch requires `iar < MEMORY_SIZE`, and the next address
is `iar + 1` or an operand already checked to be below `MEMORY_SIZE`. -/
theorem step_iar_le (m m2 : Mima) (hi : m.iar ≤ MEMORY_SIZE)
    (h : m.step = some m2) : m2.iar ≤ MEMORY_SIZE := by
  rw [Mima.step] at h
  by_cases hh : m.halt = true
  · simp only [hh, if_true] at h
    injection h with h
    subst h
    exact hi
  · simp only [Bool.not_eq_true] at hh
    simp only [hh, Bool.false_eq_true, if_false] at h
    rw [memRead] at h
    by_cases hfetch : m.iar < MEMORY_SIZE
    · rw [if_pos hfetch] at h
      dsimp only at h
      cases hcmd : Command.from_usize (m.memory m.iar) with
      | none =>
        rw [hcmd] at h
        dsimp only at h
        injection h with h
        subst h
        exact hi
      | some c =>
        rw [hcmd] at h
        dsimp only at h
        by_cases hv : c.value ≥ MEMORY_SIZE
        · rw [if_pos hv] at h
          injection h with h
          subst h
          exact hi
        · rw [if_neg hv] at h
          rcases Option.map_eq_some'.mp h with ⟨⟨m3, nxt⟩, hexec, hm2⟩
          obtain ⟨hiar3, hnxt⟩ := exec_iar_next m c m3 nxt hexec
          subst hm2
          by_cases h3 : m3.halt = true
          · simp only [h3, if_true]
            omega
          · simp only [Bool.not_eq_true] at h3
            simp only [h3, Bool.false_eq_true, if_false]
            rcases hnxt with hnxt | hnxt <;> omega
    · rw [if_neg hfetch] at h
      dsimp only at h
      exact Option.noConfusion h

/-! ### C10: the unchecked instruction fetch -/

/-- C10 (counterexample to the claim as stated): `load` never bounds-checks
the start address, so `load` of an empty image with start address
`MEMORY_SIZE` succeeds and leaves a reachable non-halted state whose
instruction-address is not below `MEMORY_SIZE`; `step` on that state
panics (models as `none`) at the unchecked fetch `memory[iar]`. -/
theorem C10_fetch_cx :
    (Mima.new.load { mima_code := [], start_adress := 1048576 }).1 = true ∧
    LoadedReach ((Mima.new.load { mima_code := [], start_adress := 1048576 }).2) ∧
    ((Mima.new.load { mima_code := [], start_adress := 1048576 }).2).halt = false ∧
    ¬ (((Mima.new.load { mima_code := [], start_adress := 1048576 }).2).iar < MEMORY_SIZE) ∧
    ((Mima.new.load { mima_code := [], start_adress := 1048576 }).2).step = none := by
  refine ⟨by decide, LoadedReach.load _ (by decide), by decide, by decide, by rfl⟩

/-- C10 (amended): `step` does read `memory[iar]` without a bounds check
whenever the halt flag is down — when `MEMORY_SIZE ≤ iar` that fetch is out
of range and `step` panics — and for every state reachable by a successful
load whose start address is below `MEMORY_SIZE` followed by non-panicking
steps, the instruction-address is at most `MEMORY_SIZE` (it can reach
exactly `MEMORY_SIZE` with halt still false, so the fetch is not always in
bounds). -/
theorem C10_fetch_bound :
    (∀ m : Mima, m.halt = false → MEMORY_SIZE ≤ m.iar → m.step = none) ∧
    (∀ m : Mima, LoadedReachB m → m.iar ≤ MEMORY_SIZE) := by
  constructor
  · intro m h1 h2
    rw [Mima.step, h1]
    simp only [Bool.false_eq_true, if_false]
    rw [memRead, if_neg (by omega)]
  · intro m h
    induction h with
    | load p hok hstart =>
      revert hok
      simp only [Mima.load, Mima.reset]
      by_cases hlen : p.mima_code.length ≥ MEMORY_SIZE
      · rw [if_pos hlen]
        intro hok
        exact absurd hok (by simp)
      · rw [if_neg hlen]
        intro _
        dsimp only
        omega
    | step m m2 hr hstep ih =>
      exact step_iar_le m m2 ih hstep

/-- C10 witness: the out-of-bounds-fetch panic at a concrete non-halted
state with `iar = MEMORY_SIZE`, and the invariant at the concrete state
reached by loading the one-word image `[0]` with start address 0. -/
theorem C10_fetch_bound_witness :
    Mima.step { akku := 0, iar := 1048576, halt := false, memory := fun _ => 0 } = none ∧
    ((Mima.new.load { mima_code := [0], start_adress := 0 }).2).iar ≤ MEMORY_SIZE :=
  ⟨C10_fetch_bound.1 _ rfl (by decide),
   C10_fetch_bound.2 _ (LoadedReachB.load _ (by decide) (by decide))⟩

/-! ### C3: the value-range invariant -/

theorem memRead_some (mem : Nat → Nat) (a v : Nat) (h : memRead mem a = some v) :
    v = mem a := by
  rw [memRead] at h
  split at h
  · injection h with h
    exact h.symm
  · exact Option.noConfusion h

theorem memWrite_some (mem : Nat → Nat) (a v : Nat) (mem2 : Nat → Nat)
    (h : memWrite mem a v = some mem2) :
    mem2 = fun i => if i = a then v else mem i := by
  rw [memWrite] at h
  split at h
  · injection h with h
    exact h.symm
  · exact Option.noConfusion h

theorem getD_lt_of_forall (B : Nat) (hB : 0 < B) :
    ∀ (l : List Nat) (a : Nat), (∀ w ∈ l, w < B) → l.getD a 0 < B := by
  intro l
  induction l with
  | nil =>
    intro a _
    simpa [List.getD] using hB
  | cons w ws ih =>
    intro a h
    cases a with
    | zero => simpa using h w (by simp)
    | succ n =>
      rw [List.getD_cons_succ]
      exact ih n (fun x hx => h x (by simp [hx]))

/-- After a `load` whose image words are all below `VALUE_SIZE`, the
accumulator and every memory cell are below `VALUE_SIZE` (whether the load
was accepted or rejected). -/
theorem load_values_lt (m : Mima) (p : CompilerOutput)
    (hp : ∀ w ∈ p.mima_code, w < VALUE_SIZE) :
    ((m.load p).2).akku < VALUE_SIZE ∧ ∀ a, ((m.load p).2).memory a < VALUE_SIZE := by
  simp only [Mima.load, Mima.reset]
  by_cases h : p.mima_code.length ≥ MEMORY_SIZE
  · rw [if_pos h]
    exact ⟨by norm_num [VALUE_SIZE], fun a => by norm_num [VALUE_SIZE]⟩
  · rw [if_neg h]
    refine ⟨by norm_num [VALUE_SIZE], ?_⟩
    intro a
    show copy_code (fun _ => 0) p.mima_code 0 a < VALUE_SIZE
    rw [copy_code_get]
    split
    · exact getD_lt_of_forall VALUE_SIZE (by norm_num [VALUE_SIZE]) _ _ hp
    · norm_num [VALUE_SIZE]

/-- Executing one dispatched instruction other than `ADD`, `NOT` and `RAR`
keeps the accumulator and every memory cell below `VALUE_SIZE`, given an
operand below `MEMORY_SIZE`. -/
theorem exec_values_lt (m : Mima) (c : Command) (m3 : Mima) (nxt : Nat)
    (hakku : m.akku < VALUE_SIZE) (hmem : ∀ a, m.memory a < VALUE_SIZE)
    (hv : c.value < MEMORY_SIZE)
    (hsafe : c.instruction ≠ Instruction.ADD ∧ c.instruction ≠ Instruction.NOT ∧
      c.instruction ≠ Instruction.RAR)
    (h : m.exec c = some (m3, nxt)) :
    m3.akku < VALUE_SIZE ∧ ∀ a, m3.memory a < VALUE_SIZE := by
  have hVS : VALUE_SIZE = 2 ^ 24 := by norm_num [VALUE_SIZE]
  have hMV : MEMORY_SIZE < VALUE_SIZE := by norm_num [MEMORY_SIZE, VALUE_SIZE]
  rw [Mima.exec] at h
  cases hins : c.instruction <;> rw [hins] at h <;> dsimp only at h
  case LDC =>
    simp only [Option.some.injEq, Prod.mk.injEq] at h
    obtain ⟨h1, _⟩ := h
    subst h1
    refine ⟨?_, hmem⟩
    show c.value < VALUE_SIZE
    omega
  case LDV =>
    rcases Option.map_eq_some'.mp h with ⟨v, hread, heq⟩
    simp only [Prod.mk.injEq] at heq
    obtain ⟨h1, _⟩ := heq
    subst h1
    have hvv := memRead_some _ _ _ hread
    subst hvv
    exact ⟨hmem _, hmem⟩
  case STV =>
    rcases Option.map_eq_some'.mp h with ⟨mem2, hwrite, heq⟩
    simp only [Prod.mk.injEq] at heq
    obtain ⟨h1, _⟩ := heq
    subst h1
    have hm2 := memWrite_some _ _ _ _ hwrite
    subst hm2
    refine ⟨hakku, ?_⟩
    intro a
    show (if a = c.value then m.akku else m.memory a) < VALUE_SIZE
    split
    · exact hakku
    · exact hmem a
  case ADD => exact absurd hins hsafe.1
  case AND =>
    rcases Option.map_eq_some'.mp h with ⟨v, hread, heq⟩
    simp only [Prod.mk.injEq] at heq
    obtain ⟨h1, _⟩ := heq
    subst h1
    have hvv := memRead_some _ _ _ hread
    subst hvv
    refine ⟨?_, hmem⟩
    show m.akku &&& m.memory c.value < VALUE_SIZE
    rw [hVS]
    exact Nat.bitwise_lt (hVS ▸ hakku) (hVS ▸ hmem _)
  case OR =>
    rcases Option.map_eq_some'.mp h with ⟨v, hread, heq⟩
    simp only [Prod.mk.injEq] at heq
    obtain ⟨h1, _⟩ := heq
    subst h1
    have hvv := memRead_some _ _ _ hread
    subst hvv
    refine ⟨?_, hmem⟩
    show m.akku ||| m.memory c.value < VALUE_SIZE
    rw [hVS]
    exact Nat.bitwise_lt (hVS ▸ hakku) (hVS ▸ hmem _)
  case XOR =>
    rcases Option.map_eq_some'.mp h with ⟨v, hread, heq⟩
    simp only [Prod.mk.injEq] at heq
    obtain ⟨h1, _⟩ := heq
    subst h1
    have hvv := memRead_some _ _ _ hread
    subst hvv
    refine ⟨?_, hmem⟩
    show m.akku ^^^ m.memory c.value < VALUE_SIZE
    rw [hVS]
    exact Nat.bitwise_lt (hVS ▸ hakku) (hVS ▸ hmem _)
  case EQL =>
    rcases Option.map_eq_some'.mp h with ⟨v, hread, heq⟩
    simp only [Prod.mk.injEq] at heq
    obtain ⟨h1, _⟩ := heq
    subst h1
    refine ⟨?_, hmem⟩
    show (if m.akku = v then MINUS_ONE else 0) < VALUE_SIZE
    split <;> norm_num [MINUS_ONE, VALUE_SIZE]
  case JMP =>
    simp only [Option.some.injEq, Prod.mk.injEq] at h
    obtain ⟨h1, _⟩ := h
    subst h1
    exact ⟨hakku, hmem⟩
  case JMN =>
    simp only [Option.some.injEq, Prod.mk.injEq] at h
    obtain ⟨h1, _⟩ := h
    subst h1
    exact ⟨hakku, hmem⟩
  case LDIV =>
    rcases Option.bind_eq_some.mp h with ⟨a, hra, hmap⟩
    rcases Option.map_eq_some'.mp hmap with ⟨v, hrv, heq⟩
    simp only [Prod.mk.injEq] at heq
    obtain ⟨h8, _⟩ := heq
    subst h8
    have hvv := memRead_some _ _ _ hrv
    subst hvv
    exact ⟨hmem _, hmem⟩
  case STIV =>
    rcases Option.bind_eq_some.mp h with ⟨a, hra, hmap⟩
    rcases Option.map_eq_some'.mp hmap with ⟨mem2, hwrite, heq⟩
    simp only [Prod.mk.injEq] at heq
    obtain ⟨h8, _⟩ := heq
    subst h8
    have hm2 := memWrite_some _ _ _ _ hwrite
    subst hm2
    refine ⟨hakku, ?_⟩
    intro x
    show (if x = a then m.akku else m.memory x) < VALUE_SIZE
    split
    · exact hakku
    · exact hmem x
  case HALT =>
    simp only [Option.some.injEq, Prod.mk.injEq] at h
    obtain ⟨h1, _⟩ := h
    subst h1
    exact ⟨hakku, hmem⟩
  case NOT => exact absurd hins hsafe.2.1
  case RAR => exact absurd hins hsafe.2.2

/-- One non-panicking `step` that does not execute `ADD`, `NOT` or `RAR`
preserves the value-range invariant. -/
theorem step_values_lt (m m2 : Mima)
    (hakku : m.akku < VALUE_SIZE) (hmem : ∀ a, m.memory a < VALUE_SIZE)
    (hsafe : StepInRange m) (h : m.step = some m2) :
    m2.akku < VALUE_SIZE ∧ ∀ a, m2.memory a < VALUE_SIZE := by
  rw [Mima.step] at h
  by_cases hh : m.halt = true
  · simp only [hh, if_true] at h
    injection h with h
    subst h
    exact ⟨hakku, hmem⟩
  · simp only [Bool.not_eq_true] at hh
    simp only [hh, Bool.false_eq_true, if_false] at h
    rw [memRead] at h
    by_cases hfetch : m.iar < MEMORY_SIZE
    · rw [if_pos hfetch] at h
      dsimp only at h
      cases hcmd : Command.from_usize (m.memory m.iar) with
      | none =>
        rw [hcmd] at h
        dsimp only at h
        injection h with h
        subst h
        exact ⟨hakku, hmem⟩
      | some c =>
        rw [hcmd] at h
        dsimp only at h
        by_cases hv : c.value ≥ MEMORY_SIZE
        · rw [if_pos hv] at h
          injection h with h
          subst h
          exact ⟨hakku, hmem⟩
        · rw [if_neg hv] at h
          rcases Option.map_eq_some'.mp h with ⟨⟨m3, nxt⟩, hexec, hm2⟩
          have h3 := exec_values_lt m c m3 nxt hakku hmem (by omega)
            (hsafe c hcmd) hexec
          subst hm2
          by_cases hhalt : m3.halt = true
          · simp only [hhalt, if_true]
            exact h3
          · simp only [Bool.not_eq_true] at hhalt
            simp only [hhalt, Bool.false_eq_true, if_false]
            exact h3
    · rw [if_neg hfetch] at h
      dsimp only at h
      exact Option.noConfusion h

/-- C3 (counterexample to the claim as stated): one `load` call on a fresh
machine reaches a state whose memory cell 0 holds `VALUE_SIZE = 2 ^ 24`
itself: `load` copies the image's words into memory with no value check. -/
theorem C3_value_range_cx :
    Reachable ((Mima.new.load { mima_code := [16777216], start_adress := 0 }).2) ∧
    ¬ (((Mima.new.load { mima_code := [16777216], start_adress := 0 }).2).memory 0
        < VALUE_SIZE) :=
  ⟨Reachable.load Mima.new _ Reachable.new, by decide⟩

/-- C3 (amended): in every state reachable from a fresh machine via `load`
calls whose images hold only words below `VALUE_SIZE`, `write_adress` calls,
and `step`/`run` calls that never execute an `ADD`, `NOT` or `RAR`
instruction, the accumulator and every memory cell hold a value below
`VALUE_SIZE`.  (As stated the claim fails: `load` does not validate the
image's words, and `ADD`, `NOT` and `RAR` compute in 64-bit `usize`
arithmetic, which can push the accumulator — and, through stores, memory —
to `VALUE_SIZE` and beyond.) -/
theorem C3_value_range (m : Mima) (h : SafeReach m) :
    m.akku < VALUE_SIZE ∧ ∀ a, a < MEMORY_SIZE → m.memory a < VALUE_SIZE := by
  have main : m.akku < VALUE_SIZE ∧ ∀ a, m.memory a < VALUE_SIZE := by
    induction h with
    | new =>
      exact ⟨by norm_num [Mima.new, VALUE_SIZE], fun a => by norm_num [Mima.new, VALUE_SIZE]⟩
    | load m p hr hp ih => exact load_values_lt m p hp
    | write_adress m a v hr ih =>
      rw [Mima.write_adress]
      split
      · exact ih
      · next hcond =>
        push_neg at hcond
        refine ⟨ih.1, ?_⟩
        intro x
        show (if x = a then v else m.memory x) < VALUE_SIZE
        split
        · omega
        · exact ih.2 x
    | step m m2 hr hsafe hstep ih =>
      exact step_values_lt m m2 ih.1 ih.2 hsafe hstep
  exact ⟨main.1, fun a _ => main.2 a⟩

/-- C3 witness: the amended invariant at the concrete reachable state
obtained by loading the safe one-word image `[12345]`. -/
theorem C3_value_range_witness :
    ((Mima.new.load { mima_code := [12345], start_adress := 0 }).2).akku < VALUE_SIZE ∧
    ((Mima.new.load { mima_code := [12345], start_adress := 0 }).2).memory 0 < VALUE_SIZE :=
  ⟨(C3_value_range _ (SafeReach.load _ _ SafeReach.new (by decide))).1,
   (C3_value_range _ (SafeReach.load _ _ SafeReach.new (by decide))).2 0 (by decide)⟩

end MimaWasm
